import Mathlib

/-!
Verification development for the yuuhitsu document pipeline.

The translation pipeline (`src/tasks/translate.ts`) and the glossary checker
(`src/tasks/glossary.ts`) are embedded shallowly: text is `List Char`
(UTF-16 code-unit counts coincide with scalar counts on every input used
here), JavaScript regexes are rendered as explicit scanners with the exact
backtracking behaviour of the source patterns, and `Map`/`Record` values are
insertion-ordered association lists.  File-system access and YAML/JSON
parsing sit outside the embedded core: the embedded functions receive the
file contents / parsed configuration directly, as the source functions do
after their I/O preamble.
-/

set_option maxRecDepth 20000

abbrev Txt := List Char

/-- Boolean prefix test on character lists, used wherever the source does a
string-prefix comparison (`slice`-equality, `startsWith`, regex literals). -/
def pfx : Txt → Txt → Bool
  | [], _ => true
  | _ :: _, [] => false
  | x :: xs, y :: ys => if x = y then pfx xs ys else false

/-- Number of leading characters satisfying `p`. -/
def leadCount (p : Char → Bool) : Txt → Nat
  | [] => 0
  | c :: rest => if p c then leadCount p rest + 1 else 0

/-- Embedding of `content.replace(/\r\n/g, "\n")` from `separateFrontmatter`. -/
def normalizeCrlf : Txt → Txt
  | [] => []
  | '\r' :: '\n' :: rest => '\n' :: normalizeCrlf rest
  | c :: rest => c :: normalizeCrlf rest

/-- After the literal `---` of a closing frontmatter delimiter the source
pattern requires `[ \t]*(\n|$)`: a maximal space/tab run followed by a
newline (consumed) or the end of the string.  Returns the number of
characters consumed, or `none` when the residue disqualifies the match. -/
def wsThenNlOrEnd (s : Txt) : Option Nat :=
  let w := leadCount (fun c => c = ' ' || c = '\t') s
  match s.drop w with
  | [] => some w
  | c :: _ => if c = '\n' then some (w + 1) else none

/-- Lazy search for `\n---[ \t]*(\n|$)` inside the first alternative of the
frontmatter regex: the smallest offset `k` at which the closing delimiter
matches wins, mirroring the non-greedy `([\s\S]*?)`.  Returns the number of
characters of the tail consumed through the end of the whole match. -/
def findFmClose : Txt → Nat → Option Nat
  | [], _ => none
  | l@(_ :: r), k =>
    if pfx ('\n' :: '-' :: '-' :: '-' :: []) l then
      match wsThenNlOrEnd (l.drop 4) with
      | some t => some (k + 4 + t)
      | none => findFmClose r (k + 1)
    else findFmClose r (k + 1)

/-- Length of the frontmatter match of
`/^---\n([\s\S]*?)\n---[ \t]*(\n|$)|^---\n---[ \t]*(\n|$)/` on the
normalized text, or `none` when the document carries no leading block.
The first alternative (non-empty metadata) is preferred, as JavaScript
alternation does. -/
def fmMatchLen (n : Txt) : Option Nat :=
  if pfx ('-' :: '-' :: '-' :: '\n' :: []) n then
    let rest := n.drop 4
    match findFmClose rest 0 with
    | some consumed => some (4 + consumed)
    | none =>
      if pfx ('-' :: '-' :: '-' :: []) rest then
        match wsThenNlOrEnd (rest.drop 3) with
        | some t => some (4 + 3 + t)
        | none => none
      else none
  else none

/-- Embedding of `separateFrontmatter` (`src/tasks/translate.ts`): normalize
CRLF, match the delimited block at the very start, and split the normalized
text at the match boundary. -/
def separateFrontmatter (content : Txt) : Option Txt × Txt :=
  let n := normalizeCrlf content
  match fmMatchLen n with
  | some len => (some (n.take len), n.drop len)
  | none => (none, n)

/-- Recombination of a frontmatter split, as the orchestrator does when it
prepends the untouched frontmatter back. -/
def fmJoin : Option Txt × Txt → Txt
  | (some fm, body) => fm ++ body
  | (none, body) => body

/-! ### Chunker (`splitIntoChunks`, `src/tasks/translate.ts`) -/

/-- The 50 KiB chunk bound (`CHUNK_SIZE = 50 * 1024`). -/
def chunkSize : Nat := 50 * 1024

/-- Embedding of JavaScript `content.split("\n")`. -/
def splitNl : Txt → List Txt
  | [] => [[]]
  | c :: rest =>
    if c = '\n' then [] :: splitNl rest
    else
      match splitNl rest with
      | [] => [[c]]
      | h :: t => (c :: h) :: t

/-- Whitespace class used by JavaScript `trim` and `\s` (the members that can
occur in the inputs considered here). -/
def jsWhite (c : Char) : Bool :=
  c = ' ' || c = '\t' || c = '\n' || c = '\r' ||
  c.toNat = 11 || c.toNat = 12 || c.toNat = 160 ||
  c.toNat = 0x2028 || c.toNat = 0x2029 || c.toNat = 0x3000 || c.toNat = 0xFEFF

/-- Embedding of JavaScript `String.prototype.trim`. -/
def jsTrim (s : Txt) : Txt :=
  ((s.dropWhile jsWhite).reverse.dropWhile jsWhite).reverse

/-- The line-accumulation loop of `splitIntoChunks`: flush the buffer when the
next line would overflow a non-empty buffer, and drop an all-whitespace final
buffer (`currentChunk.trim().length > 0` guards the last push). -/
def chunkLoop (cs : Nat) : List Txt → Txt → List Txt → List Txt
  | [], current, acc => if 0 < (jsTrim current).length then acc ++ [current] else acc
  | line :: rest, current, acc =>
    if current.length + line.length + 1 > cs ∧ 0 < current.length then
      chunkLoop cs rest (line ++ ['\n']) (acc ++ [current])
    else
      chunkLoop cs rest (current ++ (line ++ ['\n'])) acc

/-- Embedding of `splitIntoChunks` (`src/tasks/translate.ts`). -/
def splitIntoChunks (content : Txt) : List Txt :=
  if content.length ≤ chunkSize then [content]
  else chunkLoop chunkSize (splitNl content) [] []

/-- Concatenation of every line followed by a newline; the chunk loop emits
text in exactly this shape. -/
def joinNlEach (ls : List Txt) : Txt :=
  (ls.map (fun l => l ++ ['\n'])).flatten

/-! ### Code protector / restorer (`protectCodeBlocks` / `restoreCodeBlocks`) -/

/-- The fence character (backtick, U+0060). -/
def btick : Char := Char.ofNat 96

/-- Decimal placeholder body, via the core numeral printer. -/
def natTxt (n : Nat) : Txt := (Nat.repr n).data

/-- Placeholder emitted for the `i`-th fenced block. -/
def blockPh (i : Nat) : Txt := "__CODE_BLOCK_".data ++ natTxt i ++ "__".data

/-- Placeholder emitted for the `i`-th inline span. -/
def inlinePh (i : Nat) : Txt := "__INLINE_CODE_".data ++ natTxt i ++ "__".data

/-- Closing-fence search for the lazy `[\s\S]*?\1[ \t]*(\n|$)` part of the
fenced-block pattern: the earliest position carrying `cap` backticks followed
by an accepted `[ \t]*(\n|$)` residue wins.  `k` counts characters already
passed over; the result is the total number of characters of the scanned
suffix consumed through the end of the match. -/
def findFenceClose (cap : Nat) : Txt → Nat → Option Nat
  | [], _ => none
  | l@(_ :: r), k =>
    if pfx (List.replicate cap btick) l then
      match wsThenNlOrEnd (l.drop cap) with
      | some t => some (k + cap + t)
      | none => findFenceClose cap r (k + 1)
    else findFenceClose cap r (k + 1)

/-- One capture attempt of `(`{3,})[^\n]*\n[\s\S]*?\1[ \t]*(\n|$)` with a
fixed opening-run capture length `cap`: consume the rest of the opening line
(`[^\n]*\n`), then search for the closing fence. -/
def tryFenceCap (s : Txt) (cap : Nat) : Option Nat :=
  let afterOpen := s.drop cap
  let lineLen := leadCount (fun c => ¬ c = '\n') afterOpen
  match afterOpen.drop lineLen with
  | [] => none
  | _ :: _ =>
    match findFenceClose cap (afterOpen.drop (lineLen + 1)) 0 with
    | some consumed => some (cap + lineLen + 1 + consumed)
    | none => none

/-- Greedy backtracking over the opening-run capture: `(`{3,})` first tries
the full backtick run, then ever shorter runs down to three. -/
def fenceCapLoop (s : Txt) : Nat → Option Nat
  | 0 => none
  | cap + 1 =>
    if cap + 1 < 3 then none
    else
      match tryFenceCap s (cap + 1) with
      | some len => some len
      | none => fenceCapLoop s cap

/-- Match attempt of the fenced-block regex at the head of `s`; returns the
match length. -/
def tryBlockMatch (s : Txt) : Option Nat :=
  let m := leadCount (fun c => c = btick) s
  if m < 3 then none else fenceCapLoop s m

/-- The global fenced-block replacement pass of `protectCodeBlocks`: scan the
original text left to right, substituting each match with
`__CODE_BLOCK_i__` plus a newline and recording the (placeholder, match)
pair in creation order.  The fuel is the remaining text length plus one. -/
def scanBlocks : Nat → Nat → Txt → Txt × List (Txt × Txt)
  | 0, _, s => (s, [])
  | fuel + 1, idx, s =>
    match tryBlockMatch s with
    | some len =>
      let ph := blockPh idx
      let (tail, m) := scanBlocks fuel (idx + 1) (s.drop len)
      (ph ++ '\n' :: tail, (ph, s.take len) :: m)
    | none =>
      match s with
      | [] => ([], [])
      | c :: rest =>
        let (tail, m) := scanBlocks fuel idx rest
        (c :: tail, m)

/-- Match attempt of the inline-span regex `` `([^`\n]+)` `` at the head of
`s`; returns the match length. -/
def tryInlineMatch (s : Txt) : Option Nat :=
  match s with
  | c :: rest =>
    if c = btick then
      let r := leadCount (fun x => ¬ x = btick ∧ ¬ x = '\n') rest
      if r = 0 then none
      else
        match rest.drop r with
        | c' :: _ => if c' = btick then some (r + 2) else none
        | [] => none
    else none
  | [] => none

/-- The global inline-span replacement pass of `protectCodeBlocks`. -/
def scanInline : Nat → Nat → Txt → Txt × List (Txt × Txt)
  | 0, _, s => (s, [])
  | fuel + 1, idx, s =>
    match tryInlineMatch s with
    | some len =>
      let ph := inlinePh idx
      let (tail, m) := scanInline fuel (idx + 1) (s.drop len)
      (ph ++ tail, (ph, s.take len) :: m)
    | none =>
      match s with
      | [] => ([], [])
      | c :: rest =>
        let (tail, m) := scanInline fuel idx rest
        (c :: tail, m)

/-- Embedding of `protectCodeBlocks` (`src/tasks/translate.ts`): fenced
blocks first, inline spans on the result, map entries in insertion order. -/
def protectCodeBlocks (content : Txt) : Txt × List (Txt × Txt) :=
  let (t1, m1) := scanBlocks (content.length + 1) 0 content
  let (t2, m2) := scanInline (t1.length + 1) 0 t1
  (t2, m1 ++ m2)

/-- Embedding of JavaScript `s.split(pat).join(rep)`: sequential leftmost
non-overlapping replacement of every occurrence. -/
def replaceAllF : Nat → Txt → Txt → Txt → Txt
  | 0, s, _, _ => s
  | fuel + 1, s, pat, rep =>
    if pat ≠ [] ∧ pfx pat s then
      rep ++ replaceAllF fuel (s.drop pat.length) pat rep
    else
      match s with
      | [] => []
      | c :: rest => c :: replaceAllF fuel rest pat rep

/-- Wrapper fixing the fuel of `replaceAllF`. -/
def replaceAll (s pat rep : Txt) : Txt := replaceAllF (s.length + 1) s pat rep

/-- Embedding of `restoreCodeBlocks` (`src/tasks/translate.ts`): for every
map entry (insertion order) replace `placeholder + "\n"` and then the bare
placeholder with the original span text. -/
def restoreCodeBlocks (content : Txt) (map : List (Txt × Txt)) : Txt :=
  map.foldl
    (fun r e => replaceAll (replaceAll r (e.1 ++ ['\n']) e.2) e.1 e.2)
    content

/-! ### Glossary data model (`src/tasks/glossary.ts`, latest revision) -/

deriving instance DecidableEq for Except

/-- One managed vocabulary entry.  `translations` and `do_not_use` are the
JavaScript `Record`s rendered as insertion-ordered association lists; an
absent `do_not_use` record is the empty list. -/
structure GlossaryTerm where
  canonical : Txt
  type : Txt
  translations : List (Txt × Txt)
  do_not_use : List (Txt × List Txt)
deriving DecidableEq

/-- The full glossary configuration. -/
structure GlossaryConfig where
  version : Nat
  languages : List Txt
  terms : List GlossaryTerm
deriving DecidableEq

/-- One detected violation.  `keyPath` is set only by the structured (JSON)
mode, which reports `line = 0`. -/
structure GlossaryIssue where
  forbidden : Txt
  canonical : Txt
  line : Nat
  keyPath : Option Txt
deriving DecidableEq

/-- First-match association-list lookup, the JavaScript `record[key]`. -/
def lookupKey {α : Type} : List (Txt × α) → Txt → Option α
  | [], _ => none
  | (k, v) :: rest, key => if k = key then some v else lookupKey rest key

/-- Embedding of `line.indexOf(pat, start)` restricted to the suffix scan:
first occurrence position at offset `i` or later, scanning `l = s.drop i`. -/
def indexOfGo (pat : Txt) : Txt → Nat → Option Nat
  | [], i => if pat = [] then some i else none
  | l@(_ :: r), i => if pfx pat l then some i else indexOfGo pat r (i + 1)

/-- Embedding of `s.indexOf(pat, start)` (`none` for `-1`). -/
def indexOfFrom (s pat : Txt) (start : Nat) : Option Nat :=
  indexOfGo pat (s.drop start) start

/-- Loop of `isOccurrenceCoveredByCanonical`: walk the occurrence positions
of the forbidden word inside the canonical translation and test whether the
canonical translation sits in the line anchored so that it covers the
forbidden occurrence at `fIdx`.  Fuel bounds the (strictly advancing)
search position. -/
def coveredLoop (line f c : Txt) (fIdx : Nat) : Nat → Nat → Bool
  | 0, _ => false
  | fuel + 1, pos =>
    match indexOfFrom c f pos with
    | none => false
    | some p =>
      if p ≤ fIdx ∧ (line.drop (fIdx - p)).take c.length = c then true
      else coveredLoop line f c fIdx fuel (p + 1)

/-- Embedding of `isOccurrenceCoveredByCanonical` (`src/tasks/glossary.ts`).
A missing or empty canonical translation is falsy in the source and yields
`false` at once. -/
def isOccurrenceCoveredByCanonical (line : Txt) (fIdx : Nat) (f : Txt)
    (canonical : Option Txt) : Bool :=
  match canonical with
  | none => false
  | some c => if c = [] then false else coveredLoop line f c fIdx (c.length + 1) 0

/-- Loop of `hasUncoveredOccurrence`: walk the occurrences of the forbidden
word in the line, succeeding at the first one not covered by the canonical
translation. -/
def hasUncoveredLoop (line f : Txt) (canonical : Option Txt) : Nat → Nat → Bool
  | 0, _ => false
  | fuel + 1, searchPos =>
    match indexOfFrom line f searchPos with
    | none => false
    | some idx =>
      if isOccurrenceCoveredByCanonical line idx f canonical then
        hasUncoveredLoop line f canonical fuel (idx + 1)
      else true

/-- Embedding of `hasUncoveredOccurrence` (`src/tasks/glossary.ts`). -/
def hasUncoveredOccurrence (line f : Txt) (canonical : Option Txt) : Bool :=
  if f = [] then false
  else hasUncoveredLoop line f canonical (line.length + 1) 0

/-! ### URL / link-target stripping (`checkGlossary` scan preamble) -/

/-- Match attempt of `https?:\/\/\S+` at the head of `s`; returns the match
length.  The optional `s` backtracks exactly as the source pattern does, and
`\S+` greedily eats the maximal non-whitespace run. -/
def tryUrlMatch (s : Txt) : Option Nat :=
  let base : Nat :=
    if pfx ("https://".data) s then 8
    else if pfx ("http://".data) s then 7
    else 0
  if base = 0 then none
  else
    let run := leadCount (fun c => ¬ jsWhite c) (s.drop base)
    if run = 0 then none else some (base + run)

/-- Global pass of `line.replace(/https?:\/\/\S+/g, "")`. -/
def stripUrlsF : Nat → Txt → Txt
  | 0, s => s
  | fuel + 1, s =>
    match tryUrlMatch s with
    | some len => stripUrlsF fuel (s.drop len)
    | none =>
      match s with
      | [] => []
      | c :: rest => c :: stripUrlsF fuel rest

/-- Embedding of the URL-removal replace. -/
def stripUrls (s : Txt) : Txt := stripUrlsF (s.length + 1) s

/-- Match attempt of `\]\([^)]+\)` at the head of `s`; returns the match
length. -/
def tryLinkMatch (s : Txt) : Option Nat :=
  match s with
  | ']' :: '(' :: rest =>
    let run := leadCount (fun c => ¬ c = ')') rest
    if run = 0 then none
    else
      match rest.drop run with
      | ')' :: _ => some (run + 3)
      | _ => none
  | _ => none

/-- Global pass of `line.replace(/\]\([^)]+\)/g, "")`. -/
def stripLinksF : Nat → Txt → Txt
  | 0, s => s
  | fuel + 1, s =>
    match tryLinkMatch s with
    | some len => stripLinksF fuel (s.drop len)
    | none =>
      match s with
      | [] => []
      | c :: rest => c :: stripLinksF fuel rest

/-- Embedding of the markdown-link-target removal replace. -/
def stripLinkTargets (s : Txt) : Txt := stripLinksF (s.length + 1) s

/-- Both removals in source order: URLs first, then link targets. -/
def stripLine (s : Txt) : Txt := stripLinkTargets (stripUrls s)

/-! ### checkGlossary, Markdown mode (`src/tasks/glossary.ts`) -/

/-- Inner loop over the lines of the protected body for one forbidden word:
strip URLs and link targets from the line, test for an uncovered occurrence,
and report the 1-based line number plus the frontmatter offset. -/
def scanLines (fw canonTerm : Txt) (canonical : Option Txt) (fmCount : Nat) :
    Nat → List Txt → List GlossaryIssue
  | _, [] => []
  | i, line :: rest =>
    if hasUncoveredOccurrence (stripLine line) fw canonical then
      ⟨fw, canonTerm, i + 1 + fmCount, none⟩ ::
        scanLines fw canonTerm canonical fmCount (i + 1) rest
    else scanLines fw canonTerm canonical fmCount (i + 1) rest

/-- Middle loop over one term's forbidden variants; an empty-string variant
is skipped (`if (forbiddenWord.length === 0) continue`). -/
def scanForbidden (fws : List Txt) (canonTerm : Txt) (canonical : Option Txt)
    (fmCount : Nat) (lines : List Txt) : List GlossaryIssue :=
  match fws with
  | [] => []
  | fw :: rest =>
    (if fw = [] then [] else scanLines fw canonTerm canonical fmCount 0 lines) ++
      scanForbidden rest canonTerm canonical fmCount lines

/-- Outer loop over the glossary terms. -/
def scanTerms (terms : List GlossaryTerm) (lang : Txt) (fmCount : Nat)
    (lines : List Txt) : List GlossaryIssue :=
  match terms with
  | [] => []
  | t :: rest =>
    scanForbidden ((lookupKey t.do_not_use lang).getD []) t.canonical
        (lookupKey t.translations lang) fmCount lines ++
      scanTerms rest lang fmCount lines

/-- The lines scanned by the Markdown mode: the body after frontmatter
separation and code protection, split on newlines. -/
def maskedLines (docContent : Txt) : List Txt :=
  splitNl (protectCodeBlocks (separateFrontmatter docContent).2).1

/-- Number of lines the frontmatter block occupied in the original file
(`frontmatter.split("\n").length - 1`). -/
def fmLineCount (docContent : Txt) : Nat :=
  match (separateFrontmatter docContent).1 with
  | some fm => (splitNl fm).length - 1
  | none => 0

/-- The language-validation error text
(`Language "<lang>" is not defined in glossary. Available: <list>`). -/
def unsupportedLangMsg (lang : Txt) (languages : List Txt) : Txt :=
  "Language \"".data ++ lang ++ "\" is not defined in glossary. Available: ".data ++
    (List.intercalate (", ".data) languages)

/-- Embedding of `checkGlossary` for a Markdown document (`src/tasks/glossary.ts`):
validate the language, separate the frontmatter, protect code spans, and scan
line by line.  The file reads and the YAML load sit before this logic in the
source and are not part of the embedded core. -/
def checkGlossaryMd (docContent : Txt) (glossary : GlossaryConfig) (lang : Txt) :
    Except Txt (List GlossaryIssue) :=
  if lang ∈ glossary.languages then
    Except.ok
      (scanTerms glossary.terms lang (fmLineCount docContent) (maskedLines docContent))
  else Except.error (unsupportedLangMsg lang glossary.languages)

/-! ### checkGlossary, structured (JSON) mode -/

/-- Loop over the extracted `(keyPath, value)` string pairs for one forbidden
word (JSON mode reports `line = 0` and carries the key path). -/
def scanValues (fw canonTerm : Txt) (canonical : Option Txt) :
    List (Txt × Txt) → List GlossaryIssue
  | [] => []
  | (keyPath, value) :: rest =>
    if hasUncoveredOccurrence (stripLine value) fw canonical then
      ⟨fw, canonTerm, 0, some keyPath⟩ :: scanValues fw canonTerm canonical rest
    else scanValues fw canonTerm canonical rest

/-- Middle loop of the JSON mode over one term's forbidden variants. -/
def scanForbiddenJson (fws : List Txt) (canonTerm : Txt) (canonical : Option Txt)
    (vals : List (Txt × Txt)) : List GlossaryIssue :=
  match fws with
  | [] => []
  | fw :: rest =>
    (if fw = [] then [] else scanValues fw canonTerm canonical vals) ++
      scanForbiddenJson rest canonTerm canonical vals

/-- Outer loop of the JSON mode over the glossary terms. -/
def scanTermsJson (terms : List GlossaryTerm) (lang : Txt)
    (vals : List (Txt × Txt)) : List GlossaryIssue :=
  match terms with
  | [] => []
  | t :: rest =>
    scanForbiddenJson ((lookupKey t.do_not_use lang).getD []) t.canonical
        (lookupKey t.translations lang) vals ++
      scanTermsJson rest lang vals

/-- Embedding of the JSON branch of `checkGlossary`, taking the string values
already extracted by `extractJsonStringValues` (the JSON parse and the
recursive extraction precede this loop in the source). -/
def checkGlossaryJsonValues (vals : List (Txt × Txt)) (glossary : GlossaryConfig)
    (lang : Txt) : Except Txt (List GlossaryIssue) :=
  if lang ∈ glossary.languages then
    Except.ok (scanTermsJson glossary.terms lang vals)
  else Except.error (unsupportedLangMsg lang glossary.languages)

/-! ### syncGlossary (`src/tasks/glossary.ts`) -/

/-- Missing-translation report entry (`MissingTranslation`). -/
structure MissingTranslation where
  canonical : Txt
  missingLanguages : List Txt
deriving DecidableEq

/-- JavaScript truthiness of `term.translations[lang]`: present and not the
empty string. -/
def truthyLookup (tr : List (Txt × Txt)) (lang : Txt) : Bool :=
  match lookupKey tr lang with
  | some v => ¬ v = []
  | none => false

/-- `record[key] = value` on an association list: overwrite in place or
append a new key in insertion order. -/
def setKey (m : List (Txt × Txt)) (key value : Txt) : List (Txt × Txt) :=
  match m with
  | [] => [(key, value)]
  | (k, v) :: rest => if k = key then (k, value) :: rest else (k, v) :: setKey rest key value

/-- The missing-language collection of the first `syncGlossary` loop for one
term (`missingLangs`). -/
def missingLangsOf (languages : List Txt) (t : GlossaryTerm) : List Txt :=
  languages.filter (fun lang => ¬ truthyLookup t.translations lang)

/-- Report list built by the first `syncGlossary` loop. -/
def missingOf (languages : List Txt) (terms : List GlossaryTerm) :
    List MissingTranslation :=
  match terms with
  | [] => []
  | t :: rest =>
    let m := missingLangsOf languages t
    if m = [] then missingOf languages rest
    else ⟨t.canonical, m⟩ :: missingOf languages rest

/-- The stub-writing inner loop of `syncGlossary` for one term: walk the
declared languages over the current (mutating) translations record, set
`""` for each falsy entry and count it. -/
def stubFold (langs : List Txt) (tr : List (Txt × Txt)) (count : Nat) :
    List (Txt × Txt) × Nat :=
  match langs with
  | [] => (tr, count)
  | lang :: rest =>
    if truthyLookup tr lang then stubFold rest tr count
    else stubFold rest (setKey tr lang []) (count + 1)

/-- Stub application to one term. -/
def stubTerm (languages : List Txt) (t : GlossaryTerm) : GlossaryTerm × Nat :=
  let (tr, n) := stubFold languages t.translations 0
  ({ t with translations := tr }, n)

/-- Stub application to the whole term list with the running stub count. -/
def stubTerms (languages : List Txt) (terms : List GlossaryTerm) :
    List GlossaryTerm × Nat :=
  match terms with
  | [] => ([], 0)
  | t :: rest =>
    let (t', n) := stubTerm languages t
    let (ts, m) := stubTerms languages rest
    (t' :: ts, n + m)

/-- Result record of `syncGlossary` (the `termsByLanguage` coverage lists are
reported through `missingTranslations`, which determines them). -/
structure SyncResult where
  totalTerms : Nat
  missingTranslations : List MissingTranslation
  stubsCreated : Nat
deriving DecidableEq

/-- Embedding of `syncGlossary` (`src/tasks/glossary.ts`): the returned
configuration is the one passed to `stringify` and written back when stubs
are created, and the unchanged input otherwise (no write happens).  The YAML
persist/reload round-trip of the external `yaml` library is modelled as the
identity on the configuration. -/
def syncGlossary (g : GlossaryConfig) : GlossaryConfig × SyncResult :=
  let missing := missingOf g.languages g.terms
  if missing = [] then
    (g, ⟨g.terms.length, missing, 0⟩)
  else
    let (terms', stubs) := stubTerms g.languages g.terms
    ({ g with terms := terms' }, ⟨g.terms.length, missing, stubs⟩)

/-! ### Specification-side notions -/

/-- `pat` occurs in `s` at position `i`. -/
def OccursAt (s pat : Txt) (i : Nat) : Prop := ∃ t, pat ++ t = s.drop i

/-- An occurrence of the canonical translation `c` covers the occurrence of
the forbidden word `f` at position `i` of `line`: the canonical occurrence
starts at or before `i` and extends at least to the end of the forbidden
occurrence. -/
def CoveredSpec (line f : Txt) (i : Nat) (c : Txt) : Prop :=
  ∃ start, start ≤ i ∧ i + f.length ≤ start + c.length ∧ OccursAt line c start

/-- Round trip of the code protector: protect, then restore with the
produced placeholder map. -/
def roundTrip (t : Txt) : Txt :=
  restoreCodeBlocks (protectCodeBlocks t).1 (protectCodeBlocks t).2

/-- Total number of falsy `(term, language)` translation pairs of a
glossary, counted per occurrence in the declared-language list. -/
def falsyPairCount (g : GlossaryConfig) : Nat :=
  (g.terms.map (fun t => g.languages.countP
    (fun lang => ¬ truthyLookup t.translations lang))).sum

/-! ### Concrete instances used in the claims -/

/-- Glossary of the canonical-overlap scenario: canonical `Subscription`,
`ja` translation `サブスクリプション`, forbidden `サブスク`. -/
def gSub : GlossaryConfig :=
  ⟨1, ["ja".data],
   [⟨"Subscription".data, "noun".data,
     [("ja".data, "サブスクリプション".data)],
     [("ja".data, ["サブスク".data])]⟩]⟩

/-- Glossary of the line-number scenario: canonical `API` with `ja` forbidden
full-width `ＡＰＩ`. -/
def gApi : GlossaryConfig :=
  ⟨1, ["ja".data, "en".data],
   [⟨"API".data, "noun".data,
     [("ja".data, "API".data), ("en".data, "API".data)],
     [("ja".data, ["ＡＰＩ".data, "えーぴーあい".data])]⟩]⟩

/-- Glossary of the false-positive-suppression tests: canonical `webhook`
with `en` forbidden `web hook` and `hook`. -/
def gWebhook : GlossaryConfig :=
  ⟨1, ["en".data],
   [⟨"webhook".data, "noun".data,
     [("en".data, "webhook".data)],
     [("en".data, ["web hook".data, "hook".data])]⟩]⟩

/-- Glossary whose forbidden variant `CODE` collides with the text of the
block placeholder token. -/
def gCode : GlossaryConfig :=
  ⟨1, ["en".data],
   [⟨"Code".data, "noun".data,
     [("en".data, "code".data)],
     [("en".data, ["CODE".data])]⟩]⟩

/-- Glossary of the link-target suppression test (`GeonicDB`). -/
def gGeo : GlossaryConfig :=
  ⟨1, ["ja".data, "en".data],
   [⟨"GeonicDB".data, "noun".data,
     [("ja".data, "GeonicDB".data), ("en".data, "GeonicDB".data)],
     [("ja".data, ["geonicdb".data]), ("en".data, ["geonicdb".data])]⟩]⟩

/-- Glossary carrying an empty-string forbidden variant. -/
def gEmptyFw : GlossaryConfig :=
  ⟨1, ["ja".data],
   [⟨"API".data, "noun".data, [("ja".data, "API".data)], [("ja".data, [[]])]⟩]⟩

/-- Glossary of the sync scenario: three declared languages, one term
translated only for `ja` and `en`. -/
def gSync : GlossaryConfig :=
  ⟨1, ["ja".data, "en".data, "zh".data],
   [⟨"Subscription".data, "noun".data,
     [("ja".data, "サブスクリプション".data), ("en".data, "subscription".data)], []⟩]⟩

/-- A single line of 51201 letters: one character over the 50 KiB chunk
bound. -/
def bigLine : Txt := List.replicate (chunkSize + 1) 'a'

/-- Fallback term used when indexing a term list. -/
def emptyTerm : GlossaryTerm := ⟨[], [], [], []⟩

/-! ### Foundational lemmas: prefix tests and occurrence search -/

theorem pfx_iff (a b : Txt) : pfx a b = true ↔ ∃ t, a ++ t = b := by
  induction a generalizing b with
  | nil => simp [pfx]
  | cons x xs ih =>
    cases b with
    | nil =>
      constructor
      · intro h; simp [pfx] at h
      · rintro ⟨t, ht⟩; simp at ht
    | cons y ys =>
      constructor
      · intro h
        by_cases hxy : x = y
        · subst hxy
          have h' : pfx xs ys = true := by simpa [pfx] using h
          obtain ⟨t, ht⟩ := (ih ys).mp h'
          exact ⟨t, by simp [ht]⟩
        · exact absurd h (by simp [pfx, hxy])
      · rintro ⟨t, ht⟩
        have hx : x = y := by
          have := congrArg (fun l => l.head?) ht
          simpa using this
        subst hx
        have ht' : xs ++ t = ys := by simpa using ht
        simp [pfx, (ih ys).mpr ⟨t, ht'⟩]

theorem occursAt_iff_pfx (s pat : Txt) (i : Nat) :
    OccursAt s pat i ↔ pfx pat (s.drop i) = true := by
  rw [OccursAt, pfx_iff]

theorem pfx_nil_right (a : Txt) (h : a ≠ []) : pfx a [] = false := by
  cases a with
  | nil => exact absurd rfl h
  | cons x xs => rfl

theorem pfx_length_le (a b : Txt) (h : pfx a b = true) : a.length ≤ b.length := by
  rcases (pfx_iff a b).mp h with ⟨t, ht⟩
  subst ht; simp

theorem indexOfGo_sound (pat l : Txt) (i j : Nat)
    (h : indexOfGo pat l i = some j) :
    i ≤ j ∧ pfx pat (l.drop (j - i)) = true ∧
      ∀ k, i ≤ k → k < j → pfx pat (l.drop (k - i)) = false := by
  induction l generalizing i with
  | nil =>
    by_cases hp : pat = []
    · subst hp
      have he : indexOfGo ([] : Txt) [] i = some i := by simp [indexOfGo]
      rw [he, Option.some_inj] at h
      subst h
      exact ⟨Nat.le_refl _, by simp [pfx], fun k hk hk' => absurd hk (by omega)⟩
    · simp [indexOfGo, hp] at h
  | cons c r ih =>
    by_cases hp : pfx pat (c :: r) = true
    · have he : indexOfGo pat (c :: r) i = some i := by simp [indexOfGo, hp]
      rw [he, Option.some_inj] at h
      subst h
      exact ⟨Nat.le_refl _, by simpa using hp, fun k hk hk' => absurd hk (by omega)⟩
    · have h' : indexOfGo pat r (i + 1) = some j := by
        simpa [indexOfGo, hp] using h
      obtain ⟨h1, h2, h3⟩ := ih (i + 1) h'
      refine ⟨by omega, ?_, ?_⟩
      · have hji : j - i = (j - (i + 1)) + 1 := by omega
        rw [hji]
        simpa using h2
      · intro k hk hk'
        by_cases hki : k = i
        · subst hki
          simpa [Nat.sub_self] using eq_false_of_ne_true hp
        · have hki' : k - i = (k - (i + 1)) + 1 := by omega
          rw [hki']
          simpa using h3 k (by omega) hk'

theorem indexOfGo_none (pat l : Txt) (i : Nat)
    (h : indexOfGo pat l i = none) :
    ∀ k, pfx pat (l.drop k) = false := by
  induction l generalizing i with
  | nil =>
    intro k
    by_cases hp : pat = []
    · subst hp; simp [indexOfGo] at h
    · simpa using pfx_nil_right pat hp
  | cons c r ih =>
    intro k
    by_cases hp : pfx pat (c :: r) = true
    · simp [indexOfGo, hp] at h
    · have h' : indexOfGo pat r (i + 1) = none := by
        simpa [indexOfGo, hp] using h
      cases k with
      | zero => simpa using eq_false_of_ne_true hp
      | succ k' => simpa using ih (i + 1) h' k'

theorem indexOfGo_complete (pat l : Txt) (i k : Nat)
    (h : pfx pat (l.drop k) = true) :
    ∃ j, indexOfGo pat l i = some j ∧ j ≤ i + k := by
  induction l generalizing i k with
  | nil =>
    have hp : pat = [] := by
      by_contra hne
      rw [List.drop_nil] at h
      exact absurd h (by simp [pfx_nil_right pat hne])
    subst hp
    exact ⟨i, by simp [indexOfGo], by omega⟩
  | cons c r ih =>
    by_cases hp : pfx pat (c :: r) = true
    · exact ⟨i, by simp [indexOfGo, hp], by omega⟩
    · cases k with
      | zero => exact absurd (by simpa using h) hp
      | succ k' =>
        obtain ⟨j, hj, hjle⟩ := ih (i + 1) k' (by simpa using h)
        exact ⟨j, by simpa [indexOfGo, hp] using hj, by omega⟩

theorem indexOfFrom_sound (s pat : Txt) (start j : Nat)
    (h : indexOfFrom s pat start = some j) :
    start ≤ j ∧ pfx pat (s.drop j) = true := by
  obtain ⟨h1, h2, _⟩ := indexOfGo_sound pat (s.drop start) start j h
  refine ⟨h1, ?_⟩
  rw [List.drop_drop, Nat.add_sub_cancel' h1] at h2
  exact h2

theorem indexOfFrom_none (s pat : Txt) (start : Nat)
    (h : indexOfFrom s pat start = none) :
    ∀ j, start ≤ j → pfx pat (s.drop j) = false := by
  intro j hj
  have hn := indexOfGo_none pat (s.drop start) start h (j - start)
  rw [List.drop_drop, Nat.add_sub_cancel' hj] at hn
  exact hn

theorem indexOfFrom_complete (s pat : Txt) (start j : Nat)
    (hj : start ≤ j) (h : pfx pat (s.drop j) = true) :
    ∃ p, indexOfFrom s pat start = some p ∧ p ≤ j := by
  have h' : pfx pat ((s.drop start).drop (j - start)) = true := by
    rw [List.drop_drop, Nat.add_sub_cancel' hj]
    exact h
  obtain ⟨p, hp, hple⟩ := indexOfGo_complete pat (s.drop start) start (j - start) h'
  exact ⟨p, hp, by omega⟩

/-! ### Characterization of the coverage test -/

theorem coveredLoop_sound (line f c : Txt) (fIdx : Nat) :
    ∀ fuel pos, coveredLoop line f c fIdx fuel pos = true →
      ∃ p, pos ≤ p ∧ pfx f (c.drop p) = true ∧ p ≤ fIdx ∧
        (line.drop (fIdx - p)).take c.length = c := by
  intro fuel
  induction fuel with
  | zero => intro pos h; simp [coveredLoop] at h
  | succ n ih =>
    intro pos h
    rw [coveredLoop] at h
    split at h
    · exact absurd h (by simp)
    · rename_i p hidx
      obtain ⟨hp1, hp2⟩ := indexOfFrom_sound c f pos p hidx
      split at h
      · rename_i hcond
        exact ⟨p, hp1, hp2, hcond.1, hcond.2⟩
      · obtain ⟨q, hq1, hq2, hq3, hq4⟩ := ih (p + 1) h
        exact ⟨q, by omega, hq2, hq3, hq4⟩

theorem coveredLoop_complete (line f c : Txt) (fIdx : Nat) (p0 : Nat)
    (hocc : pfx f (c.drop p0) = true) (hle : p0 ≤ fIdx)
    (htake : (line.drop (fIdx - p0)).take c.length = c) :
    ∀ fuel pos, pos ≤ p0 → p0 < pos + fuel →
      coveredLoop line f c fIdx fuel pos = true := by
  intro fuel
  induction fuel with
  | zero => intro pos h1 h2; omega
  | succ n ih =>
    intro pos h1 h2
    rw [coveredLoop]
    split
    · rename_i hidx
      obtain ⟨p, hp, _⟩ := indexOfFrom_complete c f pos p0 h1 hocc
      rw [hidx] at hp
      cases hp
    · rename_i p hidx
      split
      · rfl
      · rename_i hcond
        obtain ⟨hge, _⟩ := indexOfFrom_sound c f pos p hidx
        obtain ⟨q, hq, hqle⟩ := indexOfFrom_complete c f pos p0 h1 hocc
        rw [hidx] at hq
        have hpq : p = q := by injection hq
        have hne : p ≠ p0 := fun he => hcond (he ▸ ⟨hle, htake⟩)
        exact ih (p + 1) (by omega) (by omega)

theorem covered_iff (line f c : Txt) (fIdx : Nat) (hf : f ≠ []) (hc : c ≠ []) :
    isOccurrenceCoveredByCanonical line fIdx f (some c) = true ↔
      ∃ p, pfx f (c.drop p) = true ∧ p ≤ fIdx ∧
        (line.drop (fIdx - p)).take c.length = c := by
  rw [isOccurrenceCoveredByCanonical, if_neg hc]
  constructor
  · intro h
    obtain ⟨p, _, h2, h3, h4⟩ := coveredLoop_sound line f c fIdx (c.length + 1) 0 h
    exact ⟨p, h2, h3, h4⟩
  · rintro ⟨p, h1, h2, h3⟩
    have hplt : p < c.length := by
      have hne : c.drop p ≠ [] := by
        intro he
        rw [he] at h1
        exact absurd h1 (by simp [pfx_nil_right f hf])
      by_contra hge
      push_neg at hge
      rw [List.drop_eq_nil_of_le hge] at hne
      exact hne rfl
    exact coveredLoop_complete line f c fIdx p h1 h2 h3 (c.length + 1) 0 (by omega) (by omega)

theorem covered_iff_spec (line f c : Txt) (i : Nat) (hf : f ≠ []) (hc : c ≠ [])
    (hocc : OccursAt line f i) :
    isOccurrenceCoveredByCanonical line i f (some c) = true ↔ CoveredSpec line f i c := by
  have hfpos : 0 < f.length := List.length_pos.mpr hf
  rw [covered_iff line f c i hf hc]
  constructor
  · rintro ⟨p, h1, h2, h3⟩
    have hplt : p < c.length := by
      have hne : c.drop p ≠ [] := by
        intro he
        rw [he] at h1
        exact absurd h1 (by simp [pfx_nil_right f hf])
      by_contra hge
      push_neg at hge
      rw [List.drop_eq_nil_of_le hge] at hne
      exact hne rfl
    have hlen : f.length + p ≤ c.length := by
      have := pfx_length_le f (c.drop p) h1
      rw [List.length_drop] at this
      omega
    refine ⟨i - p, by omega, by omega, ?_⟩
    rw [occursAt_iff_pfx, pfx_iff]
    refine ⟨(line.drop (i - p)).drop c.length, ?_⟩
    nth_rewrite 1 [← h3]
    exact List.take_append_drop c.length (line.drop (i - p))
  · rintro ⟨start, hs1, hs2, hs3⟩
    rw [occursAt_iff_pfx, pfx_iff] at hocc
    rw [occursAt_iff_pfx, pfx_iff] at hs3
    obtain ⟨u, hu⟩ := hocc
    obtain ⟨t, htc⟩ := hs3
    have hpc : i - start ≤ c.length := by omega
    have hdc : line.drop i = c.drop (i - start) ++ t := by
      have hii : line.drop i = (line.drop start).drop (i - start) := by
        rw [List.drop_drop, Nat.add_sub_cancel' hs1]
      rw [hii, ← htc, List.drop_append_of_le_length hpc]
    have hflen : f.length ≤ (c.drop (i - start)).length := by
      rw [List.length_drop]; omega
    have hfeq : f = (c.drop (i - start)).take f.length := by
      have h1 : f = (line.drop i).take f.length := by
        rw [← hu, List.take_append_of_le_length (Nat.le_refl f.length), List.take_length]
      nth_rewrite 1 [h1]
      rw [hdc, List.take_append_of_le_length hflen]
    refine ⟨i - start, ?_, by omega, ?_⟩
    · rw [pfx_iff]
      refine ⟨(c.drop (i - start)).drop f.length, ?_⟩
      nth_rewrite 1 [hfeq]
      exact List.take_append_drop f.length (c.drop (i - start))
    · have hip : i - (i - start) = start := by omega
      rw [hip, ← htc, List.take_append_of_le_length (Nat.le_refl c.length), List.take_length]

/-! ### Characterization of the uncovered-occurrence test -/

theorem hasUncoveredLoop_sound (line f : Txt) (canonical : Option Txt) :
    ∀ fuel pos, hasUncoveredLoop line f canonical fuel pos = true →
      ∃ i, pos ≤ i ∧ pfx f (line.drop i) = true ∧
        isOccurrenceCoveredByCanonical line i f canonical = false := by
  intro fuel
  induction fuel with
  | zero => intro pos h; simp [hasUncoveredLoop] at h
  | succ n ih =>
    intro pos h
    rw [hasUncoveredLoop] at h
    split at h
    · exact absurd h (by simp)
    · rename_i idx hidx
      obtain ⟨h1, h2⟩ := indexOfFrom_sound line f pos idx hidx
      split at h
      · obtain ⟨i, hi1, hi2, hi3⟩ := ih (idx + 1) h
        exact ⟨i, by omega, hi2, hi3⟩
      · rename_i hcov
        exact ⟨idx, h1, h2, eq_false_of_ne_true hcov⟩

theorem hasUncoveredLoop_complete (line f : Txt) (canonical : Option Txt) (i0 : Nat)
    (hocc : pfx f (line.drop i0) = true)
    (hcov : isOccurrenceCoveredByCanonical line i0 f canonical = false) :
    ∀ fuel pos, pos ≤ i0 → i0 < pos + fuel →
      hasUncoveredLoop line f canonical fuel pos = true := by
  intro fuel
  induction fuel with
  | zero => intro pos h1 h2; omega
  | succ n ih =>
    intro pos h1 h2
    rw [hasUncoveredLoop]
    split
    · rename_i hidx
      obtain ⟨p, hp, _⟩ := indexOfFrom_complete line f pos i0 h1 hocc
      rw [hidx] at hp
      cases hp
    · rename_i idx hidx
      obtain ⟨hge, _⟩ := indexOfFrom_sound line f pos idx hidx
      obtain ⟨q, hq, hqle⟩ := indexOfFrom_complete line f pos i0 h1 hocc
      rw [hidx] at hq
      have hiq : idx = q := by injection hq
      split
      · rename_i hcovIdx
        have hne : idx ≠ i0 := by
          intro he
          rw [he, hcov] at hcovIdx
          cases hcovIdx
        exact ih (idx + 1) (by omega) (by omega)
      · rfl

theorem hasUncovered_iff (line f : Txt) (canonical : Option Txt) (hf : f ≠ []) :
    hasUncoveredOccurrence line f canonical = true ↔
      ∃ i, OccursAt line f i ∧
        isOccurrenceCoveredByCanonical line i f canonical = false := by
  rw [hasUncoveredOccurrence, if_neg hf]
  constructor
  · intro h
    obtain ⟨i, _, h2, h3⟩ := hasUncoveredLoop_sound line f canonical (line.length + 1) 0 h
    exact ⟨i, (occursAt_iff_pfx line f i).mpr h2, h3⟩
  · rintro ⟨i, h1, h2⟩
    rw [occursAt_iff_pfx] at h1
    have hlt : i < line.length := by
      have hne : line.drop i ≠ [] := by
        intro he
        rw [he] at h1
        exact absurd h1 (by simp [pfx_nil_right f hf])
      by_contra hge
      push_neg at hge
      rw [List.drop_eq_nil_of_le hge] at hne
      exact hne rfl
    exact hasUncoveredLoop_complete line f canonical i h1 h2 (line.length + 1) 0
      (by omega) (by omega)

/-! ### Structure of the scanning loops -/

theorem scanLines_mem (fw ct : Txt) (canonical : Option Txt) (fm : Nat) :
    ∀ lines i is, is ∈ scanLines fw ct canonical fm i lines →
      is.forbidden = fw ∧ is.canonical = ct ∧ i + 1 + fm ≤ is.line ∧
        ∃ line ∈ lines, hasUncoveredOccurrence (stripLine line) fw canonical = true := by
  intro lines
  induction lines with
  | nil => intro i is h; simp [scanLines] at h
  | cons line0 rest ih =>
    intro i is h
    rw [scanLines] at h
    split at h
    · rename_i hhit
      rcases List.mem_cons.mp h with he | ht
      · subst he
        exact ⟨rfl, rfl, Nat.le_refl _, line0, List.mem_cons_self _ _, hhit⟩
      · obtain ⟨h1, h2, h3, line, hline, h4⟩ := ih (i + 1) is ht
        exact ⟨h1, h2, by omega, line, List.mem_cons_of_mem _ hline, h4⟩
    · obtain ⟨h1, h2, h3, line, hline, h4⟩ := ih (i + 1) is h
      exact ⟨h1, h2, by omega, line, List.mem_cons_of_mem _ hline, h4⟩

theorem scanLines_count (fw ct : Txt) (canonical : Option Txt) (fm : Nat) :
    ∀ lines i j line L, lines.get? j = some line → L = i + j + 1 + fm →
      (scanLines fw ct canonical fm i lines).countP (fun is => is.line == L) =
        if hasUncoveredOccurrence (stripLine line) fw canonical then 1 else 0 := by
  intro lines
  induction lines with
  | nil => intro i j line L h hL; simp at h
  | cons line0 rest ih =>
    intro i j line L h hL
    cases j with
    | zero =>
      have hl : line = line0 := by simpa using h.symm
      subst hl
      have htail : ∀ is ∈ scanLines fw ct canonical fm (i + 1) rest,
          ¬ (is.line == L) = true := by
        intro is his
        obtain ⟨_, _, hlb, _⟩ := scanLines_mem fw ct canonical fm rest (i + 1) is his
        simp only [beq_iff_eq]
        omega
      rw [scanLines]
      split
      · rw [List.countP_cons]
        have hz : (scanLines fw ct canonical fm (i + 1) rest).countP
            (fun is => is.line == L) = 0 := List.countP_eq_zero.mpr htail
        rw [hz]
        have hP : ((⟨fw, ct, i + 1 + fm, none⟩ : GlossaryIssue).line == L) = true := by
          simp only [beq_iff_eq]
          omega
        simp [hP]
      · exact List.countP_eq_zero.mpr htail
    | succ j' =>
      have hrest : rest.get? j' = some line := by simpa using h
      rw [scanLines]
      split
      · rw [List.countP_cons]
        have hP : ((⟨fw, ct, i + 1 + fm, none⟩ : GlossaryIssue).line == L) = false := by
          simp only [beq_eq_false_iff_ne, ne_eq]
          intro hcontra
          have hx : i + 1 + fm = L := hcontra
          omega
        rw [hP]
        have hrec := ih (i + 1) j' line L hrest (by omega)
        simp [hrec]
      · exact ih (i + 1) j' line L hrest (by omega)

theorem scanForbidden_mem (fws : List Txt) (ct : Txt) (canonical : Option Txt)
    (fm : Nat) (lines : List Txt) (is : GlossaryIssue)
    (h : is ∈ scanForbidden fws ct canonical fm lines) :
    ∃ fw ∈ fws, fw ≠ [] ∧ is ∈ scanLines fw ct canonical fm 0 lines := by
  induction fws with
  | nil => simp [scanForbidden] at h
  | cons fw rest ih =>
    rw [scanForbidden] at h
    rcases List.mem_append.mp h with hl | hr
    · by_cases hfw : fw = []
      · rw [if_pos hfw] at hl
        simp at hl
      · rw [if_neg hfw] at hl
        exact ⟨fw, List.mem_cons_self _ _, hfw, hl⟩
    · obtain ⟨fw', hmem, hne, hin⟩ := ih hr
      exact ⟨fw', List.mem_cons_of_mem _ hmem, hne, hin⟩

theorem scanTerms_mem (terms : List GlossaryTerm) (lang : Txt) (fm : Nat)
    (lines : List Txt) (is : GlossaryIssue)
    (h : is ∈ scanTerms terms lang fm lines) :
    ∃ t ∈ terms, is ∈ scanForbidden ((lookupKey t.do_not_use lang).getD [])
      t.canonical (lookupKey t.translations lang) fm lines := by
  induction terms with
  | nil => simp [scanTerms] at h
  | cons t rest ih =>
    rw [scanTerms] at h
    rcases List.mem_append.mp h with hl | hr
    · exact ⟨t, List.mem_cons_self _ _, hl⟩
    · obtain ⟨t', hmem, hin⟩ := ih hr
      exact ⟨t', List.mem_cons_of_mem _ hmem, hin⟩

theorem scanValues_mem (fw ct : Txt) (canonical : Option Txt) :
    ∀ vals is, is ∈ scanValues fw ct canonical vals → is.forbidden = fw := by
  intro vals
  induction vals with
  | nil => intro is h; simp [scanValues] at h
  | cons v rest ih =>
    intro is h
    rw [scanValues] at h
    split at h
    · rcases List.mem_cons.mp h with he | ht
      · subst he; rfl
      · exact ih is ht
    · exact ih is h

theorem scanForbiddenJson_mem (fws : List Txt) (ct : Txt) (canonical : Option Txt)
    (vals : List (Txt × Txt)) (is : GlossaryIssue)
    (h : is ∈ scanForbiddenJson fws ct canonical vals) :
    ∃ fw ∈ fws, fw ≠ [] ∧ is ∈ scanValues fw ct canonical vals := by
  induction fws with
  | nil => simp [scanForbiddenJson] at h
  | cons fw rest ih =>
    rw [scanForbiddenJson] at h
    rcases List.mem_append.mp h with hl | hr
    · by_cases hfw : fw = []
      · rw [if_pos hfw] at hl
        simp at hl
      · rw [if_neg hfw] at hl
        exact ⟨fw, List.mem_cons_self _ _, hfw, hl⟩
    · obtain ⟨fw', hmem, hne, hin⟩ := ih hr
      exact ⟨fw', List.mem_cons_of_mem _ hmem, hne, hin⟩

theorem scanTermsJson_mem (terms : List GlossaryTerm) (lang : Txt)
    (vals : List (Txt × Txt)) (is : GlossaryIssue)
    (h : is ∈ scanTermsJson terms lang vals) :
    ∃ t ∈ terms, is ∈ scanForbiddenJson ((lookupKey t.do_not_use lang).getD [])
      t.canonical (lookupKey t.translations lang) vals := by
  induction terms with
  | nil => simp [scanTermsJson] at h
  | cons t rest ih =>
    rw [scanTermsJson] at h
    rcases List.mem_append.mp h with hl | hr
    · exact ⟨t, List.mem_cons_self _ _, hl⟩
    · obtain ⟨t', hmem, hin⟩ := ih hr
      exact ⟨t', List.mem_cons_of_mem _ hmem, hin⟩

/-! ### Chunker lemmas -/

theorem splitNl_ne_nil (s : Txt) : splitNl s ≠ [] := by
  cases s with
  | nil => simp [splitNl]
  | cons c rest =>
    rw [splitNl]
    split
    · simp
    · split
      · simp
      · simp

theorem joinNlEach_splitNl (s : Txt) : joinNlEach (splitNl s) = s ++ ['\n'] := by
  induction s with
  | nil => simp [splitNl, joinNlEach]
  | cons c rest ih =>
    rw [splitNl]
    split
    · rename_i hc
      subst hc
      simp only [joinNlEach, List.map_cons, List.flatten_cons, List.nil_append]
      rw [← joinNlEach, ih]
      simp
    · rename_i hc
      cases hsp : splitNl rest with
      | nil => exact absurd hsp (splitNl_ne_nil rest)
      | cons h t =>
        rw [hsp] at ih
        simp only [joinNlEach, List.map_cons, List.flatten_cons,
          List.cons_append, List.append_assoc] at ih ⊢
        rw [ih]

theorem jsTrim_nil_iff (s : Txt) : jsTrim s = [] ↔ ∀ c ∈ s, jsWhite c = true := by
  rw [jsTrim]
  constructor
  · intro h c hc
    rw [List.reverse_eq_nil_iff, List.dropWhile_eq_nil_iff] at h
    by_cases hd : c ∈ s.dropWhile jsWhite
    · have hdr : c ∈ (s.dropWhile jsWhite).reverse := List.mem_reverse.mpr hd
      exact h c hdr
    · have hs := List.takeWhile_append_dropWhile jsWhite s
      have hc' : c ∈ s.takeWhile jsWhite ++ s.dropWhile jsWhite := by
        rw [hs]; exact hc
      rcases List.mem_append.mp hc' with ht | hd'
      · exact List.mem_takeWhile_imp ht
      · exact absurd hd' hd
  · intro h
    have h1 : s.dropWhile jsWhite = [] := by
      rw [List.dropWhile_eq_nil_iff]
      intro c hc
      exact h c hc
    simp [h1]

theorem splitNl_no_newline (s : Txt) (h : ∀ c ∈ s, ¬ c = '\n') : splitNl s = [s] := by
  induction s with
  | nil => rfl
  | cons c rest ih =>
    rw [splitNl]
    rw [if_neg (h c (List.mem_cons_self _ _))]
    rw [ih (fun x hx => h x (List.mem_cons_of_mem _ hx))]

theorem chunkLoop_inv (cs : Nat) :
    ∀ ls current acc, ∃ w, (∀ c ∈ w, jsWhite c = true) ∧
      (chunkLoop cs ls current acc).flatten ++ w =
        acc.flatten ++ current ++ joinNlEach ls := by
  intro ls
  induction ls with
  | nil =>
    intro current acc
    rw [chunkLoop]
    split
    · exact ⟨[], by simp, by simp [joinNlEach]⟩
    · rename_i hpush
      refine ⟨current, ?_, by simp [joinNlEach]⟩
      intro c hc
      have htr : jsTrim current = [] := by
        have := Nat.eq_zero_of_not_pos hpush
        exact List.length_eq_zero.mp this
      exact (jsTrim_nil_iff current).mp htr c hc
  | cons line rest ih =>
    intro current acc
    rw [chunkLoop]
    split
    · obtain ⟨w, hw, heq⟩ := ih (line ++ ['\n']) (acc ++ [current])
      refine ⟨w, hw, ?_⟩
      rw [heq]
      simp [joinNlEach, List.append_assoc]
    · obtain ⟨w, hw, heq⟩ := ih (current ++ (line ++ ['\n'])) acc
      refine ⟨w, hw, ?_⟩
      rw [heq]
      simp [joinNlEach, List.append_assoc]

theorem chunkLoop_single_line (cs : Nat) (line : Txt)
    (hnw : ∃ c ∈ line, jsWhite c = false) :
    chunkLoop cs [line] [] [] = [line ++ ['\n']] := by
  rw [chunkLoop]
  rw [if_neg (by simp)]
  rw [chunkLoop]
  rw [if_pos ?_]
  · simp
  · obtain ⟨c, hc, hcw⟩ := hnw
    have hne : jsTrim ([] ++ (line ++ ['\n'])) ≠ [] := by
      intro he
      have := (jsTrim_nil_iff _).mp he c (by simp [hc])
      rw [this] at hcw
      cases hcw
    have := List.length_pos.mpr hne
    omega

theorem splitIntoChunks_oversized_line (content : Txt)
    (hlen : chunkSize < content.length) (hnl : ∀ c ∈ content, ¬ c = '\n')
    (hnw : ∃ c ∈ content, jsWhite c = false) :
    splitIntoChunks content = [content ++ ['\n']] := by
  rw [splitIntoChunks, if_neg (by omega)]
  rw [splitNl_no_newline content hnl]
  exact chunkLoop_single_line chunkSize content hnw

theorem bigLine_chunks : splitIntoChunks bigLine = [bigLine ++ ['\n']] := by
  apply splitIntoChunks_oversized_line
  · rw [bigLine, List.length_replicate]
    omega
  · intro c hc
    have := List.eq_of_mem_replicate hc
    subst this
    decide
  · refine ⟨'a', ?_, by decide⟩
    rw [bigLine]
    apply List.mem_replicate.mpr
    exact ⟨by decide, rfl⟩

/-! ### Frontmatter lemmas -/

theorem separateFrontmatter_join (content : Txt) :
    fmJoin (separateFrontmatter content) = normalizeCrlf content := by
  rw [separateFrontmatter]
  cases h : fmMatchLen (normalizeCrlf content) with
  | none => rfl
  | some len => simp [fmJoin]

theorem separateFrontmatter_none_body (content : Txt)
    (h : (separateFrontmatter content).1 = none) :
    (separateFrontmatter content).2 = normalizeCrlf content := by
  rw [separateFrontmatter] at h ⊢
  cases hm : fmMatchLen (normalizeCrlf content) with
  | none => rfl
  | some len => rw [hm] at h; simp at h

/-! ### Sync lemmas -/

theorem lookupKey_setKey (m : List (Txt × Txt)) (k v l : Txt) :
    lookupKey (setKey m k v) l = if l = k then some v else lookupKey m l := by
  induction m with
  | nil =>
    by_cases hl : l = k
    · subst hl
      simp [setKey, lookupKey]
    · have hl' : ¬ k = l := fun h => hl h.symm
      simp only [setKey, lookupKey, if_neg hl, if_neg hl']
  | cons kv rest ih =>
    obtain ⟨k', v'⟩ := kv
    rw [setKey]
    by_cases hk : k' = k
    · subst hk
      rw [if_pos rfl]
      by_cases hl : l = k'
      · subst hl
        simp [lookupKey]
      · have hl' : ¬ k' = l := fun h => hl h.symm
        simp only [lookupKey, if_neg hl, if_neg hl']
    · rw [if_neg hk]
      by_cases hl : l = k'
      · subst hl
        have hlk : ¬ l = k := fun h => hk (h.symm ▸ rfl)
        simp [lookupKey, if_neg hlk]
      · have hl' : ¬ k' = l := fun h => hl h.symm
        simp only [lookupKey, if_neg hl']
        exact ih

theorem truthy_setKey_nil (tr : List (Txt × Txt)) (lang : Txt)
    (h : truthyLookup tr lang = false) (l : Txt) :
    truthyLookup (setKey tr lang []) l = truthyLookup tr l := by
  by_cases hl : l = lang
  · subst hl
    have hset : lookupKey (setKey tr l []) l = some [] := by
      rw [lookupKey_setKey, if_pos rfl]
    rw [truthyLookup, hset, h]
    simp
  · rw [truthyLookup, lookupKey_setKey, if_neg hl, truthyLookup]

theorem stubFold_count (langs : List Txt) :
    ∀ tr n, (stubFold langs tr n).2 =
      n + langs.countP (fun l => ¬ truthyLookup tr l) := by
  induction langs with
  | nil => intro tr n; simp [stubFold]
  | cons lang rest ih =>
    intro tr n
    rw [stubFold]
    by_cases ht : truthyLookup tr lang = true
    · rw [if_pos ht, ih]
      rw [List.countP_cons]
      simp [ht]
    · have ht' : truthyLookup tr lang = false := eq_false_of_ne_true ht
      rw [if_neg ht, ih]
      have hcong : rest.countP (fun l => ¬ truthyLookup (setKey tr lang []) l) =
          rest.countP (fun l => ¬ truthyLookup tr l) := by
        apply List.countP_congr
        intro l _
        rw [truthy_setKey_nil tr lang ht' l]
      rw [hcong, List.countP_cons]
      simp [ht']
      try omega

theorem stubFold_keeps (langs : List Txt) :
    ∀ tr n l, lookupKey tr l = some [] →
      lookupKey (stubFold langs tr n).1 l = some [] := by
  induction langs with
  | nil => intro tr n l h; simpa [stubFold] using h
  | cons lang rest ih =>
    intro tr n l h
    rw [stubFold]
    by_cases ht : truthyLookup tr lang = true
    · rw [if_pos ht]; exact ih tr n l h
    · rw [if_neg ht]
      apply ih
      rw [lookupKey_setKey]
      by_cases hl : l = lang
      · rw [if_pos hl]
      · rw [if_neg hl]; exact h

theorem stubFold_lookup (langs : List Txt) :
    ∀ tr n l, truthyLookup tr l = false → l ∈ langs →
      lookupKey (stubFold langs tr n).1 l = some [] := by
  induction langs with
  | nil => intro tr n l _ h; simp at h
  | cons lang rest ih =>
    intro tr n l hfalsy hmem
    rw [stubFold]
    by_cases hl : l = lang
    · subst hl
      rw [if_neg (by simp [hfalsy])]
      apply stubFold_keeps
      rw [lookupKey_setKey, if_pos rfl]
    · have hmem' : l ∈ rest := by
        rcases List.mem_cons.mp hmem with he | hr
        · exact absurd he hl
        · exact hr
      by_cases ht : truthyLookup tr lang = true
      · rw [if_pos ht]; exact ih tr n l hfalsy hmem'
      · rw [if_neg ht]
        apply ih
        · rw [truthy_setKey_nil tr lang (eq_false_of_ne_true ht) l]
          exact hfalsy
        · exact hmem'

theorem stubTerms_count (langs : List Txt) :
    ∀ terms, (stubTerms langs terms).2 =
      (terms.map (fun t => langs.countP
        (fun lang => ¬ truthyLookup t.translations lang))).sum := by
  intro terms
  induction terms with
  | nil => simp [stubTerms]
  | cons t rest ih =>
    rw [stubTerms]
    simp only [List.map_cons, List.sum_cons]
    rw [show (stubTerm langs t).2 = (stubFold langs t.translations 0).2 from rfl]
    rw [stubFold_count langs t.translations 0, ih]
    omega

theorem stubTerms_get (langs : List Txt) :
    ∀ terms k, (stubTerms langs terms).1.get? k =
      (terms.get? k).map (fun t => (stubTerm langs t).1) := by
  intro terms
  induction terms with
  | nil => intro k; simp [stubTerms]
  | cons t rest ih =>
    intro k
    rw [stubTerms]
    cases k with
    | zero => simp
    | succ k' => simpa using ih k'

theorem missingOf_nil_iff (langs : List Txt) (terms : List GlossaryTerm) :
    missingOf langs terms = [] ↔ ∀ t ∈ terms, missingLangsOf langs t = [] := by
  induction terms with
  | nil => simp [missingOf]
  | cons t rest ih =>
    rw [missingOf]
    by_cases hm : missingLangsOf langs t = []
    · rw [if_pos hm, ih]
      constructor
      · intro h t' ht'
        rcases List.mem_cons.mp ht' with he | hr
        · subst he; exact hm
        · exact h t' hr
      · intro h t' ht'
        exact h t' (List.mem_cons_of_mem _ ht')
    · rw [if_neg hm]
      constructor
      · intro h; cases h
      · intro h
        exact absurd (h t (List.mem_cons_self _ _)) hm

theorem missingLangsOf_nil_iff (langs : List Txt) (t : GlossaryTerm) :
    missingLangsOf langs t = [] ↔
      langs.countP (fun lang => ¬ truthyLookup t.translations lang) = 0 := by
  rw [missingLangsOf, List.countP_eq_zero, List.filter_eq_nil_iff]

/-! ### Inversion of checkGlossary success -/

theorem checkGlossaryMd_ok (doc : Txt) (g : GlossaryConfig) (lang : Txt)
    (issues : List GlossaryIssue)
    (h : checkGlossaryMd doc g lang = Except.ok issues) :
    issues = scanTerms g.terms lang (fmLineCount doc) (maskedLines doc) := by
  rw [checkGlossaryMd] at h
  split at h
  · injection h with h'
    exact h'.symm
  · cases h

theorem checkGlossaryJsonValues_ok (vals : List (Txt × Txt)) (g : GlossaryConfig)
    (lang : Txt) (issues : List GlossaryIssue)
    (h : checkGlossaryJsonValues vals g lang = Except.ok issues) :
    issues = scanTermsJson g.terms lang vals := by
  rw [checkGlossaryJsonValues] at h
  split at h
  · injection h with h'
    exact h'.symm
  · cases h

/-! ### Claim theorems -/

/-- Claim C1 (code bug): the protect/restore round trip is NOT the identity.
On the input `"a `b`\nc"` — an inline code span at the end of a line —
protection yields `"a __INLINE_CODE_0__\nc"` with the single map entry
`__INLINE_CODE_0__ ↦ "`b`"`, and restoration returns `"a `b`c"`: the newline
after the span is lost, because `restoreCodeBlocks` first replaces
`placeholder + "\n"` (intended for block placeholders, whose protection
appended a newline) even for inline placeholders. -/
theorem c1_roundtrip_failure :
    protectCodeBlocks ("a `b`\nc".data) =
      ("a __INLINE_CODE_0__\nc".data, [("__INLINE_CODE_0__".data, "`b`".data)]) ∧
    roundTrip ("a `b`\nc".data) = ("a `b`c".data) ∧
    roundTrip ("a `b`\nc".data) ≠ ("a `b`\nc".data) := by
  refine ⟨by decide, by decide, by decide⟩

/-- Claim C2 counterexample: a single line of 51201 characters exceeds the
50 KiB bound, is emitted as one chunk with a newline appended, and the
concatenation of the chunks therefore differs from the content. -/
theorem c2_counterexample : (splitIntoChunks bigLine).flatten ≠ bigLine := by
  intro h
  rw [bigLine_chunks, List.flatten_cons, List.flatten_nil, List.append_nil] at h
  have hlen := congrArg List.length h
  rw [List.length_append] at hlen
  have h1 : List.length ['\n'] = 1 := rfl
  rw [h1] at hlen
  omega

/-- Claim C2 (amended): a content within the 50 KiB bound is returned as the
single chunk, exactly; for an oversized content the concatenation of the
chunks equals the content with a final newline appended, up to a dropped
all-whitespace tail; and a single line exceeding the bound alone (containing
some non-whitespace) is emitted as its own single chunk equal to the line
plus a trailing newline, not split mid-line. -/
theorem c2_chunk_reconstruction (content : Txt) :
    (content.length ≤ chunkSize → splitIntoChunks content = [content]) ∧
    (chunkSize < content.length → ∃ w, (∀ c ∈ w, jsWhite c = true) ∧
      (splitIntoChunks content).flatten ++ w = content ++ ['\n']) ∧
    (chunkSize < content.length → (∀ c ∈ content, ¬ c = '\n') →
      (∃ c ∈ content, jsWhite c = false) →
      splitIntoChunks content = [content ++ ['\n']]) := by
  refine ⟨?_, ?_, ?_⟩
  · intro h
    rw [splitIntoChunks, if_pos h]
  · intro h
    rw [splitIntoChunks, if_neg (by omega)]
    obtain ⟨w, hw, heq⟩ := chunkLoop_inv chunkSize (splitNl content) [] []
    refine ⟨w, hw, ?_⟩
    rw [heq]
    simp [joinNlEach_splitNl]
  · intro h hnl hnw
    exact splitIntoChunks_oversized_line content h hnl hnw

/-- Claim C2 witness: both bound regimes at concrete inputs. -/
theorem c2_witness :
    splitIntoChunks ("ab".data) = [("ab".data)] ∧
    splitIntoChunks bigLine = [bigLine ++ ['\n']] := by
  constructor
  · exact (c2_chunk_reconstruction ("ab".data)).1 (by decide)
  · refine (c2_chunk_reconstruction bigLine).2.2 ?_ ?_ ?_
    · rw [bigLine, List.length_replicate]
      omega
    · intro c hc
      have he := List.eq_of_mem_replicate hc
      subst he
      decide
    · refine ⟨'a', ?_, by decide⟩
      rw [bigLine]
      exact List.mem_replicate.mpr ⟨by decide, rfl⟩

/-- Claim C3: coverage by the canonical translation is position-anchored.
An occurrence of a forbidden variant at position `i` is covered exactly when
an occurrence of the canonical translation covers position `i`
(`CoveredSpec`); a line reports exactly when some occurrence is uncovered,
even if a covering canonical occurrence exists elsewhere on the line; and on
the concrete scenarios, `"サブスクリプションモデルを採用しています。"` yields zero issues
while `"サブスク管理画面を開きます。"` yields exactly one issue with forbidden
`"サブスク"`. -/
theorem c3_canonical_overlap :
    (∀ line f c i, f ≠ [] → c ≠ [] → OccursAt line f i →
      (isOccurrenceCoveredByCanonical line i f (some c) = true ↔
        CoveredSpec line f i c)) ∧
    (∀ line f canonical, f ≠ [] →
      (hasUncoveredOccurrence line f canonical = true ↔
        ∃ i, OccursAt line f i ∧
          isOccurrenceCoveredByCanonical line i f canonical = false)) ∧
    checkGlossaryMd ("サブスクリプションモデルを採用しています。\n".data) gSub ("ja".data) =
      Except.ok [] ∧
    checkGlossaryMd ("サブスク管理画面を開きます。\n".data) gSub ("ja".data) =
      Except.ok [⟨"サブスク".data, "Subscription".data, 1, none⟩] := by
  refine ⟨?_, ?_, by decide, by decide⟩
  · intro line f c i hf hc hocc
    exact covered_iff_spec line f c i hf hc hocc
  · intro line f canonical hf
    exact hasUncovered_iff line f canonical hf

/-- Claim C3 witness: the characterizations applied to the scenario line. -/
theorem c3_witness :
    hasUncoveredOccurrence ("サブスク管理画面を開きます。".data) ("サブスク".data)
        (some ("サブスクリプション".data)) = true ↔
      ∃ i, OccursAt ("サブスク管理画面を開きます。".data) ("サブスク".data) i ∧
        isOccurrenceCoveredByCanonical ("サブスク管理画面を開きます。".data) i ("サブスク".data)
          (some ("サブスクリプション".data)) = false :=
  c3_canonical_overlap.2.1 ("サブスク管理画面を開きます。".data) ("サブスク".data)
    (some ("サブスクリプション".data)) (by decide)

/-- Claim C4 counterexample: the line `"hook hook"` carries two uncovered
occurrences of the forbidden variant `hook` (at positions 0 and 5), yet
`checkGlossary` reports exactly ONE issue for that line, not two. -/
theorem c4_counterexample :
    OccursAt ("hook hook".data) ("hook".data) 0 ∧
    OccursAt ("hook hook".data) ("hook".data) 5 ∧
    isOccurrenceCoveredByCanonical ("hook hook".data) 0 ("hook".data)
      (some ("webhook".data)) = false ∧
    isOccurrenceCoveredByCanonical ("hook hook".data) 5 ("hook".data)
      (some ("webhook".data)) = false ∧
    checkGlossaryMd ("hook hook\n".data) gWebhook ("en".data) =
      Except.ok [⟨"hook".data, "webhook".data, 1, none⟩] := by
  refine ⟨⟨(" hook".data), by decide⟩, ⟨[], by decide⟩, by decide, by decide, by decide⟩

/-- Claim C4 (amended): per forbidden-list entry and per line, the scan
reports AT MOST one issue: a line with at least one uncovered occurrence of
the variant (however many) contributes exactly one issue carrying that
line's number. -/
theorem c4_once_per_line :
    (∀ (fw ct : Txt) (canonical : Option Txt) (fm : Nat) (lines : List Txt)
        (i : Nat) (line : Txt), lines.get? i = some line → fw ≠ [] →
      (∃ j, OccursAt (stripLine line) fw j ∧
        isOccurrenceCoveredByCanonical (stripLine line) j fw canonical = false) →
      (scanLines fw ct canonical fm 0 lines).countP
        (fun is => is.line == i + 1 + fm) = 1) ∧
    checkGlossaryMd ("hook hook\n".data) gWebhook ("en".data) =
      Except.ok [⟨"hook".data, "webhook".data, 1, none⟩] := by
  refine ⟨?_, by decide⟩
  intro fw ct canonical fm lines i line hline hfw hocc
  have hhit : hasUncoveredOccurrence (stripLine line) fw canonical = true := by
    rw [hasUncovered_iff (stripLine line) fw canonical hfw]
    exact hocc
  have hcount := scanLines_count fw ct canonical fm lines 0 i line (i + 1 + fm)
    hline (by omega)
  rw [hhit] at hcount
  simpa using hcount

/-- Claim C4 witness: the general once-per-line bound at the concrete
two-occurrence line. -/
theorem c4_witness :
    (scanLines ("hook".data) ("webhook".data) (some ("webhook".data)) 0 0
      ["hook hook".data, []]).countP (fun is => is.line == 1) = 1 :=
  c4_once_per_line.1 ("hook".data) ("webhook".data) (some ("webhook".data)) 0
    ["hook hook".data, []] 0 ("hook hook".data) (by decide) (by decide)
    ⟨0, ⟨(" hook".data), by decide⟩, by decide⟩

/-- Claim C5 counterexample: a forbidden variant that collides with the
placeholder token text (`CODE`) IS reported even though its only occurrence
in the document lies inside a fenced code span: the placeholder line
`__CODE_BLOCK_0__` itself contains the variant. -/
theorem c5_counterexample :
    checkGlossaryMd ("```\nCODE\n```\n".data) gCode ("en".data) =
      Except.ok [⟨"CODE".data, "Code".data, 1, none⟩] ∧
    checkGlossaryMd ("```\nCODE\n```\n".data) gCode ("en".data) ≠ Except.ok [] := by
  refine ⟨by decide, by decide⟩

/-- Claim C5 (amended): the scan sees only the masked body with URL and
link-target substrings removed — every reported issue's forbidden variant
occurs in the stripped text of some masked line, so occurrences confined to
code spans, absolute URLs or link targets are not scanned (and the concrete
fenced / inline / URL / link-target documents yield zero issues) — except
that a variant occurring in the placeholder token text substituted for a
code span can still be reported. -/
theorem c5_suppression :
    (∀ doc g lang issues, checkGlossaryMd doc g lang = Except.ok issues →
      ∀ is ∈ issues, is.forbidden ≠ [] ∧
        ∃ line ∈ maskedLines doc, ∃ j, OccursAt (stripLine line) is.forbidden j) ∧
    checkGlossaryMd ("Text before.\n\n```\nweb hook example\n```\n\nText after.\n".data)
      gWebhook ("en".data) = Except.ok [] ∧
    checkGlossaryMd ("Use `web hook` syntax here.\n".data) gWebhook ("en".data) =
      Except.ok [] ∧
    checkGlossaryMd ("See [docs](https://example.com/hook-events/list) for info.\n".data)
      gWebhook ("en".data) = Except.ok [] ∧
    checkGlossaryMd ("[なぜ GeonicDB を選ぶのか？](/ja/introduction/why-geonicdb)\n".data)
      gGeo ("ja".data) = Except.ok [] := by
  refine ⟨?_, by decide, by decide, by decide, by decide⟩
  intro doc g lang issues hok is his
  rw [checkGlossaryMd_ok doc g lang issues hok] at his
  obtain ⟨t, _, hfb⟩ := scanTerms_mem g.terms lang (fmLineCount doc) (maskedLines doc) is his
  obtain ⟨fw, _, hfwne, hsl⟩ := scanForbidden_mem _ _ _ _ _ is hfb
  obtain ⟨hforb, _, _, line, hline, hhit⟩ :=
    scanLines_mem fw t.canonical (lookupKey t.translations lang) (fmLineCount doc)
      (maskedLines doc) 0 is hsl
  subst hforb
  refine ⟨hfwne, line, hline, ?_⟩
  obtain ⟨j, hj, _⟩ :=
    (hasUncovered_iff (stripLine line) is.forbidden
      (lookupKey t.translations lang) hfwne).mp hhit
  exact ⟨j, hj⟩

/-- Claim C5 witness: the soundness direction applied to a reported issue —
the variant `hook` of the one issue of the line-map document occurs in the
stripped masked text. -/
theorem c5_witness :
    ∃ line ∈ maskedLines
        ("```\nweb hook in code\n```\n\nThis hook should be flagged.\n".data),
      ∃ j, OccursAt (stripLine line) ("hook".data) j := by
  have h := (c5_suppression.1
    ("```\nweb hook in code\n```\n\nThis hook should be flagged.\n".data)
    gWebhook ("en".data) [⟨"hook".data, "webhook".data, 3, none⟩] (by decide)
    ⟨"hook".data, "webhook".data, 3, none⟩ (by decide)).2
  exact h

/-- Claim C6 (code bug): line numbers are computed on the masked body, in
which a fenced block has collapsed to a single placeholder line.  The simple
scenario without a preceding block is right (`ＡＰＩの説明` on original line 3
is reported as line 3), but prose following a fenced code block is reported
at the shrunken position: the repository's own test expects line 5 for the
`hook` violation below, while the code reports line 3. -/
theorem c6_line_numbers :
    checkGlossaryMd ("# Title\n\nＡＰＩの説明\n".data) gApi ("ja".data) =
      Except.ok [⟨"ＡＰＩ".data, "API".data, 3, none⟩] ∧
    checkGlossaryMd ("```\nweb hook in code\n```\n\nThis hook should be flagged.\n".data)
      gWebhook ("en".data) =
      Except.ok [⟨"hook".data, "webhook".data, 3, none⟩] := by
  refine ⟨by decide, by decide⟩

/-- Claim C7: frontmatter separation reconstructs the normalized input —
frontmatter concatenated with body equals the CRLF-normalized raw text
whenever a block is detected, and with no leading well-formed block the
frontmatter is `none` and the body is the whole normalized input; a CRLF
document, a zero-metadata block and a document ending at the closing
delimiter are all detected. -/
theorem c7_frontmatter_reconstruction :
    (∀ content, fmJoin (separateFrontmatter content) = normalizeCrlf content) ∧
    (∀ content, (separateFrontmatter content).1 = none →
      (separateFrontmatter content).2 = normalizeCrlf content) ∧
    separateFrontmatter ("---\r\ntitle: Test\r\n---\r\n\r\n# Body\r\n".data) =
      (some ("---\ntitle: Test\n---\n".data), "\n# Body\n".data) ∧
    separateFrontmatter ("---\n---\n\n# Body".data) =
      (some ("---\n---\n".data), "\n# Body".data) ∧
    separateFrontmatter ("---\ntitle: Test\n---".data) =
      (some ("---\ntitle: Test\n---".data), []) ∧
    (separateFrontmatter ("hello world".data)).1 = none := by
  refine ⟨?_, ?_, by decide, by decide, by decide, by decide⟩
  · intro content
    exact separateFrontmatter_join content
  · intro content h
    exact separateFrontmatter_none_body content h

/-- Claim C7 witness: the reconstruction identities at concrete inputs. -/
theorem c7_witness :
    fmJoin (separateFrontmatter ("---\r\ntitle: Test\r\n---\r\n\r\n# Body\r\n".data)) =
      normalizeCrlf ("---\r\ntitle: Test\r\n---\r\n\r\n# Body\r\n".data) ∧
    (separateFrontmatter ("hello world".data)).2 = normalizeCrlf ("hello world".data) :=
  ⟨c7_frontmatter_reconstruction.1 ("---\r\ntitle: Test\r\n---\r\n\r\n# Body\r\n".data),
   c7_frontmatter_reconstruction.2.1 ("hello world".data) (by decide)⟩

/-- Claim C9: a language not declared in the glossary makes `checkGlossary`
fail with the configuration error naming the available languages — never an
empty (or any) issue list — in both the Markdown and the structured mode. -/
theorem c9_unsupported_language (doc : Txt) (vals : List (Txt × Txt))
    (g : GlossaryConfig) (lang : Txt) (h : lang ∉ g.languages) :
    checkGlossaryMd doc g lang = Except.error (unsupportedLangMsg lang g.languages) ∧
    (∀ issues, checkGlossaryMd doc g lang ≠ Except.ok issues) ∧
    checkGlossaryJsonValues vals g lang =
      Except.error (unsupportedLangMsg lang g.languages) := by
  refine ⟨?_, ?_, ?_⟩
  · rw [checkGlossaryMd, if_neg h]
  · intro issues hcontra
    rw [checkGlossaryMd, if_neg h] at hcontra
    cases hcontra
  · rw [checkGlossaryJsonValues, if_neg h]

/-- Claim C9 witness: the undeclared language `zh` against the subscription
glossary, whose message lists the single available language `ja`. -/
theorem c9_witness :
    checkGlossaryMd ("some text\n".data) gSub ("zh".data) =
      Except.error ("Language \"zh\" is not defined in glossary. Available: ja".data) ∧
    (∀ issues, checkGlossaryMd ("some text\n".data) gSub ("zh".data) ≠
      Except.ok issues) := by
  have h := c9_unsupported_language ("some text\n".data) [] gSub ("zh".data) (by decide)
  exact ⟨by rw [h.1]; decide, h.2.1⟩

/-- Claim C10: no emitted issue carries an empty forbidden string — an
empty-string `do_not_use` entry is skipped in both the Markdown and the
structured mode — and a document scanned against a glossary whose only
variant is the empty string yields zero issues. -/
theorem c10_no_empty_forbidden :
    (∀ doc g lang issues, checkGlossaryMd doc g lang = Except.ok issues →
      ∀ is ∈ issues, is.forbidden ≠ []) ∧
    (∀ vals g lang issues, checkGlossaryJsonValues vals g lang = Except.ok issues →
      ∀ is ∈ issues, is.forbidden ≠ []) ∧
    checkGlossaryMd ("abc\n".data) gEmptyFw ("ja".data) = Except.ok [] := by
  refine ⟨?_, ?_, by decide⟩
  · intro doc g lang issues hok is his
    rw [checkGlossaryMd_ok doc g lang issues hok] at his
    obtain ⟨t, _, hfb⟩ :=
      scanTerms_mem g.terms lang (fmLineCount doc) (maskedLines doc) is his
    obtain ⟨fw, _, hfwne, hsl⟩ := scanForbidden_mem _ _ _ _ _ is hfb
    obtain ⟨hforb, _, _, _, _, _⟩ :=
      scanLines_mem fw t.canonical (lookupKey t.translations lang) (fmLineCount doc)
        (maskedLines doc) 0 is hsl
    rw [hforb]
    exact hfwne
  · intro vals g lang issues hok is his
    rw [checkGlossaryJsonValues_ok vals g lang issues hok] at his
    obtain ⟨t, _, hfb⟩ := scanTermsJson_mem g.terms lang vals is his
    obtain ⟨fw, _, hfwne, hsv⟩ := scanForbiddenJson_mem _ _ _ _ is hfb
    have hforb := scanValues_mem fw t.canonical (lookupKey t.translations lang) vals is hsv
    rw [hforb]
    exact hfwne

/-- Claim C10 witness: the reported issue of the two-occurrence document has
a non-empty forbidden string. -/
theorem c10_witness :
    (⟨"hook".data, "webhook".data, 1, none⟩ : GlossaryIssue).forbidden ≠ [] :=
  c10_no_empty_forbidden.1 ("hook hook\n".data) gWebhook ("en".data)
    [⟨"hook".data, "webhook".data, 1, none⟩] (by decide)
    ⟨"hook".data, "webhook".data, 1, none⟩ (by decide)

/-- Claim C8: `syncGlossary` counts one stub per falsy `(term, language)`
translation pair, writes an empty-string stub for every such pair into the
persisted configuration whenever at least one exists, and on the
three-language scenario with one term translated only for `ja` and `en` it
reports the single missing `zh` entry, creates one stub, and the persisted
term carries a `zh` key with the empty string. -/
theorem c8_sync_stubs :
    (∀ g, (syncGlossary g).2.stubsCreated = falsyPairCount g) ∧
    (∀ g, 0 < falsyPairCount g → ∀ k t, g.terms.get? k = some t →
      ∀ lang ∈ g.languages, truthyLookup t.translations lang = false →
      ∃ t', (syncGlossary g).1.terms.get? k = some t' ∧
        lookupKey t'.translations lang = some []) ∧
    (syncGlossary gSync).2 =
      ⟨1, [⟨"Subscription".data, ["zh".data]⟩], 1⟩ ∧
    (∃ t', (syncGlossary gSync).1.terms.get? 0 = some t' ∧
      lookupKey t'.translations ("zh".data) = some []) := by
  have hzero : ∀ g : GlossaryConfig, missingOf g.languages g.terms = [] →
      falsyPairCount g = 0 := by
    intro g he
    rw [falsyPairCount]
    apply List.sum_eq_zero
    intro x hx
    obtain ⟨t, ht, hxe⟩ := List.mem_map.mp hx
    rw [← hxe, ← missingLangsOf_nil_iff]
    exact (missingOf_nil_iff _ _).mp he t ht
  refine ⟨?_, ?_, by decide, ?_⟩
  · intro g
    rcases hstub : stubTerms g.languages g.terms with ⟨ts, st⟩
    by_cases hm : missingOf g.languages g.terms = []
    · have hz := hzero g hm
      simp [syncGlossary, hm, hz]
    · have hst : st = falsyPairCount g := by
        have hc := stubTerms_count g.languages g.terms
        rw [hstub] at hc
        simpa [falsyPairCount] using hc
      simp [syncGlossary, hm, hstub, hst]
  · intro g hpos k t hk lang hlang hfalsy
    have hm : missingOf g.languages g.terms ≠ [] := by
      intro he
      rw [hzero g he] at hpos
      omega
    rcases hstub : stubTerms g.languages g.terms with ⟨ts, st⟩
    refine ⟨(stubTerm g.languages t).1, ?_, ?_⟩
    · have hget := stubTerms_get g.languages g.terms k
      rw [hstub] at hget
      have hget' : ts.get? k = some ((stubTerm g.languages t).1) := by
        rw [show (ts, st).1 = ts from rfl] at hget
        rw [hget, hk]
        rfl
      simp [syncGlossary, hm, hstub]
      simpa using hget'
    · rcases hsf : stubFold g.languages t.translations 0 with ⟨tr, n⟩
      have htr : (stubTerm g.languages t).1.translations = tr := by
        simp [stubTerm, hsf]
      rw [htr]
      have hlk := stubFold_lookup g.languages t.translations 0 lang hfalsy hlang
      rw [hsf] at hlk
      exact hlk
  · refine ⟨⟨"Subscription".data, "noun".data,
      [("ja".data, "サブスクリプション".data), ("en".data, "subscription".data),
       ("zh".data, [])], []⟩, by decide, by decide⟩

/-- Claim C8 witness: the stub-writing guarantee at the scenario glossary. -/
theorem c8_witness :
    ∃ t', (syncGlossary gSync).1.terms.get? 0 = some t' ∧
      lookupKey t'.translations ("zh".data) = some [] :=
  c8_sync_stubs.2.1 gSync (by decide) 0
    ⟨"Subscription".data, "noun".data,
      [("ja".data, "サブスクリプション".data), ("en".data, "subscription".data)], []⟩
    (by decide) ("zh".data) (by decide) (by decide)
